import Mathlib

set_option linter.unusedSectionVars false

/-!
# Verification of the fixed-size LRU function cache (`src/core/lru_std.hpp`)

The C++ class `lru_cache_using_std<K, V, MAP>` memoizes a function
`V f(const K&)` under an LRU eviction policy.  It couples

* `_key_tracker : std::list<K>` — the access-order list, least recently
  used key at the front, most recently used at the back; and
* `_key_to_value : MAP<K, std::pair<V, list::iterator>>` — the index map
  from key to the cached value together with an iterator (a stable
  handle) to that key's node in `_key_tracker`.

We embed the class shallowly.  `std::list` nodes are stable heap cells;
we model each node as a pair `(id, key)` where `id : Nat` is the node's
identity (fresh ids are drawn from a counter `nextId`), so that the
iterator stored inside a map entry becomes the node id it designates.
The map is modelled as an association list of entries
`(key, (value, handle))`; only `find` / `insert` / `erase` / `size` are
used by the source, and none of the claims depend on the map's internal
ordering.

Two ghost observation fields are added to the state: `fnLog` records, in
order, the keys on which the cached function has been invoked, and
`evictLog` records, in order, the keys that have been evicted.  The
operations only ever append to these fields and never read them; they
exist solely to let theorems speak about function invocations and
eviction order.
-/

namespace LruStd

/-- The state of `lru_cache_using_std`: the cached function `_fn`, the fixed
`_capacity`, the access-order list `_key_tracker` (front = LRU, back = MRU,
each node carried with its identity), the index map `_key_to_value`
(association list `key ↦ (value, node id)`), the fresh-node counter, and the
two ghost logs. -/
structure Cache (K V : Type) where
  fn : K → V
  capacity : Nat
  tracker : List (Nat × K)
  keyToValue : List (K × (V × Nat))
  nextId : Nat
  fnLog : List K
  evictLog : List K

variable {K V : Type} [DecidableEq K]

/-- The keys currently stored in the index map (`_key_to_value`). -/
def keys (s : Cache K V) : List K :=
  s.keyToValue.map (·.1)

/-- The keys of the access-order list `_key_tracker`, front (LRU) first. -/
def trackerKeys (s : Cache K V) : List K :=
  s.tracker.map (·.2)

/-- `size()`: the current entry count, `_key_to_value.size()`. -/
def size (s : Cache K V) : Nat :=
  s.keyToValue.length

/-- `_key_to_value.find(k)`, returning the whole entry if present. -/
def findEntry (s : Cache K V) (k : K) : Option (K × (V × Nat)) :=
  s.keyToValue.find? (fun e => decide (e.1 = k))

/-- `evict()`: look up the key at the front of `_key_tracker` in the map,
erase that map entry, and pop the front of the list.  The source asserts the
tracker is non-empty; on the (unreachable) empty tracker the model is the
identity.  The evicted key is appended to the ghost `evictLog`. -/
def evict (s : Cache K V) : Cache K V :=
  match s.tracker with
  | [] => s
  | n :: rest =>
      { s with
        keyToValue := s.keyToValue.eraseP (fun e => decide (e.1 = n.2)),
        tracker := rest,
        evictLog := s.evictLog ++ [n.2] }

/-- `insert(k, v)` (private; called only on misses): if
`_key_to_value.size() == _capacity` then `evict()` first; then append `k` at
the back of `_key_tracker` (obtaining a fresh node) and insert
`(k ↦ (v, handle-to-that-node))` into `_key_to_value`. -/
def insert (s : Cache K V) (k : K) (v : V) : Cache K V :=
  let s1 := if s.keyToValue.length = s.capacity then evict s else s
  { s1 with
    tracker := s1.tracker ++ [(s1.nextId, k)],
    keyToValue := s1.keyToValue ++ [(k, (v, s1.nextId))],
    nextId := s1.nextId + 1 }

/-- `_key_tracker.splice(_key_tracker.end(), _key_tracker, it)` where `it`
is the stored handle `h`: move the node designated by `h` to the back of the
list.  If no node carries id `h` (a stale handle — undefined behaviour in
the source, unreachable through the API) the model is the identity. -/
def splice (s : Cache K V) (h : Nat) : Cache K V :=
  match s.tracker.find? (fun n => decide (n.1 = h)) with
  | none => s
  | some nd =>
      { s with tracker := s.tracker.eraseP (fun n => decide (n.1 = h)) ++ [nd] }

/-- `operator[](k)`: look `k` up in `_key_to_value`.  On a miss, evaluate
`_fn(k)` (recorded in the ghost `fnLog`) and `insert` the result; on a hit,
splice the key's node (via the stored handle) to the back of `_key_tracker`
and return the stored value. -/
def get (s : Cache K V) (k : K) : V × Cache K V :=
  match s.keyToValue.find? (fun e => decide (e.1 = k)) with
  | none =>
      let v := s.fn k
      (v, insert { s with fnLog := s.fnLog ++ [k] } k v)
  | some e => (e.2.1, splice s e.2.2)

/-- The state of a freshly constructed cache over `f` with capacity `c`:
both containers empty. -/
def fresh (f : K → V) (c : Nat) : Cache K V :=
  ⟨f, c, [], [], 0, [], []⟩

/-- The constructor: `assert(_capacity != 0)` makes construction with
capacity `0` a fatal precondition failure (modelled as `none`); otherwise
the empty cache is produced. -/
def mkCache (f : K → V) (c : Nat) : Option (Cache K V) :=
  if c = 0 then none else some (fresh f c)

/-- `front()`: if `_key_tracker` is empty return the end iterator (modelled
as `none`); otherwise return the map entry found for the front (least
recently used) key.  A pure observation: it takes no new state. -/
def front (s : Cache K V) : Option (K × (V × Nat)) :=
  match s.tracker with
  | [] => none
  | n :: _ => s.keyToValue.find? (fun e => decide (e.1 = n.2))

/-- `operator[]` when the cached function may throw, modelled as
`fe : K → Except E V`: an exception raised by `_fn(k)` on a miss
propagates to the caller before `insert` runs, so the state is returned
unchanged.  Hits and successful misses behave as in `get`. -/
def getE {E : Type} (s : Cache K V) (fe : K → Except E V) (k : K) :
    Except E V × Cache K V :=
  match s.keyToValue.find? (fun e => decide (e.1 = k)) with
  | none =>
      match fe k with
      | .error err => (.error err, s)
      | .ok v => (.ok v, insert { s with fnLog := s.fnLog ++ [k] } k v)
  | some e => (.ok e.2.1, splice s e.2.2)

/-- Run a sequence of `get` calls, discarding the returned values. -/
def runGets (s : Cache K V) (ks : List K) : Cache K V :=
  ks.foldl (fun s k => (get s k).2) s

/-- The states reachable from a freshly constructed cache over `f` with
capacity `c` by any sequence of `get` calls. -/
inductive Reachable (f : K → V) (c : Nat) : Cache K V → Prop
  | init : Reachable f c (fresh f c)
  | step (s : Cache K V) (k : K) :
      Reachable f c s → Reachable f c (get s k).2

/-- The internal invariant tying `_key_tracker` and `_key_to_value`
together: no duplicate keys on either side, no duplicate node ids, every
map entry's stored handle designates the node holding that entry's key and
every tracker node has a map entry pointing back at it, the two containers
have equal cardinality bounded by the (positive) capacity, all live node
ids are below the fresh-id counter, and every cached value is the function
value of its key. -/
structure Inv (s : Cache K V) : Prop where
  capPos : 0 < s.capacity
  keysNodup : (keys s).Nodup
  idsNodup : (s.tracker.map (·.1)).Nodup
  trKeysNodup : (trackerKeys s).Nodup
  mapToTr : ∀ e ∈ s.keyToValue, (e.2.2, e.1) ∈ s.tracker
  trToMap : ∀ n ∈ s.tracker, ∃ v, (n.2, (v, n.1)) ∈ s.keyToValue
  len : s.keyToValue.length = s.tracker.length
  sizeLe : s.keyToValue.length ≤ s.capacity
  idsLt : ∀ n ∈ s.tracker, n.1 < s.nextId
  vals : ∀ e ∈ s.keyToValue, e.2.1 = s.fn e.1

/-! ## Generic list helpers -/

/-- In a list whose image under `f` has no duplicates, an element `a` is the
unique one carrying the key `f a`: `find?` locates exactly it, and `eraseP`
removes exactly it, splitting the list around it. -/
theorem unique_key_split {α β : Type} [DecidableEq β] {l : List α} {f : α → β}
    (hn : (l.map f).Nodup) {a : α} (ha : a ∈ l) {p : α → Bool}
    (hp : ∀ b, p b = decide (f b = f a)) :
    ∃ l₁ l₂, l = l₁ ++ a :: l₂ ∧
      l.find? p = some a ∧
      l.eraseP p = l₁ ++ l₂ ∧
      (∀ b ∈ l₁ ++ l₂, f b ≠ f a) := by
  have hpe : p = fun b => decide (f b = f a) := funext hp
  subst hpe
  obtain ⟨a', l₁, l₂, hl₁, hpa, hdecomp, herase⟩ :=
    List.exists_of_eraseP (p := fun b => decide (f b = f a)) ha (by simp)
  have ha' : a' ∈ l := hdecomp ▸ List.mem_append_right l₁ (List.mem_cons_self a' l₂)
  have hfa : f a' = f a := by simpa using hpa
  have haa : a' = a := List.inj_on_of_nodup_map hn ha' ha hfa
  rw [haa] at hdecomp
  refine ⟨l₁, l₂, hdecomp, ?_, herase, ?_⟩
  · rw [hdecomp, List.find?_append]
    have h1 : l₁.find? (fun b => decide (f b = f a)) = none :=
      List.find?_eq_none.2 hl₁
    rw [h1, List.find?_cons_of_pos _ (by simp)]
    rfl
  · intro b hb
    rcases List.mem_append.1 hb with hb1 | hb2
    · have := hl₁ b hb1
      simpa using this
    · have hmap : (l.map f).Nodup := hn
      rw [hdecomp] at hmap
      rw [List.map_append, List.map_cons] at hmap
      have : f a ∉ l₂.map f := by
        rcases List.nodup_append.1 hmap with ⟨_, hcons, _⟩
        exact (List.nodup_cons.1 hcons).1
      intro hfb
      exact this (hfb ▸ List.mem_map_of_mem f hb2)

/-! ## Cache observation lemmas -/

theorem mem_keys {s : Cache K V} {k : K} :
    k ∈ keys s ↔ ∃ p, (k, p) ∈ s.keyToValue := by
  constructor
  · intro h
    obtain ⟨e, he, hek⟩ := List.mem_map.1 h
    exact ⟨e.2, by rw [← hek, Prod.mk.eta]; exact he⟩
  · rintro ⟨p, hp⟩
    exact List.mem_map.2 ⟨(k, p), hp, rfl⟩

theorem findEntry_eq_none {s : Cache K V} {k : K} :
    s.keyToValue.find? (fun e => decide (e.1 = k)) = none ↔ k ∉ keys s := by
  rw [List.find?_eq_none]
  constructor
  · intro h hk
    obtain ⟨p, hp⟩ := mem_keys.1 hk
    exact h _ hp (by simp)
  · intro h e he
    simp only [decide_eq_true_eq]
    intro hek
    exact h (mem_keys.2 ⟨e.2, by rw [← hek, Prod.mk.eta]; exact he⟩)

/-! ## Frame lemmas: fields the operations do not touch -/

@[simp] theorem evict_fn (s : Cache K V) : (evict s).fn = s.fn := by
  cases h : s.tracker <;> simp [evict, h]

@[simp] theorem evict_capacity (s : Cache K V) : (evict s).capacity = s.capacity := by
  cases h : s.tracker <;> simp [evict, h]

@[simp] theorem evict_nextId (s : Cache K V) : (evict s).nextId = s.nextId := by
  cases h : s.tracker <;> simp [evict, h]

@[simp] theorem evict_fnLog (s : Cache K V) : (evict s).fnLog = s.fnLog := by
  cases h : s.tracker <;> simp [evict, h]

@[simp] theorem insert_fn (s : Cache K V) (k : K) (v : V) :
    (insert s k v).fn = s.fn := by
  unfold insert; dsimp only; split <;> simp

@[simp] theorem insert_capacity (s : Cache K V) (k : K) (v : V) :
    (insert s k v).capacity = s.capacity := by
  unfold insert; dsimp only; split <;> simp

@[simp] theorem insert_fnLog (s : Cache K V) (k : K) (v : V) :
    (insert s k v).fnLog = s.fnLog := by
  unfold insert; dsimp only; split <;> simp

@[simp] theorem splice_fn (s : Cache K V) (h : Nat) : (splice s h).fn = s.fn := by
  cases hf : s.tracker.find? (fun n => decide (n.1 = h)) <;> simp [splice, hf]

@[simp] theorem splice_capacity (s : Cache K V) (h : Nat) :
    (splice s h).capacity = s.capacity := by
  cases hf : s.tracker.find? (fun n => decide (n.1 = h)) <;> simp [splice, hf]

@[simp] theorem splice_keyToValue (s : Cache K V) (h : Nat) :
    (splice s h).keyToValue = s.keyToValue := by
  cases hf : s.tracker.find? (fun n => decide (n.1 = h)) <;> simp [splice, hf]

@[simp] theorem splice_fnLog (s : Cache K V) (h : Nat) :
    (splice s h).fnLog = s.fnLog := by
  cases hf : s.tracker.find? (fun n => decide (n.1 = h)) <;> simp [splice, hf]

@[simp] theorem splice_evictLog (s : Cache K V) (h : Nat) :
    (splice s h).evictLog = s.evictLog := by
  cases hf : s.tracker.find? (fun n => decide (n.1 = h)) <;> simp [splice, hf]

@[simp] theorem splice_nextId (s : Cache K V) (h : Nat) :
    (splice s h).nextId = s.nextId := by
  cases hf : s.tracker.find? (fun n => decide (n.1 = h)) <;> simp [splice, hf]

@[simp] theorem get_fn (s : Cache K V) (k : K) : (get s k).2.fn = s.fn := by
  cases hf : s.keyToValue.find? (fun e => decide (e.1 = k)) <;> simp [get, hf]

@[simp] theorem get_capacity (s : Cache K V) (k : K) :
    (get s k).2.capacity = s.capacity := by
  cases hf : s.keyToValue.find? (fun e => decide (e.1 = k)) <;> simp [get, hf]

/-! ## Invariant preservation -/

theorem inv_fresh {f : K → V} {c : Nat} (hc : 0 < c) : Inv (fresh f c : Cache K V) :=
  ⟨hc, List.nodup_nil, List.nodup_nil, List.nodup_nil,
    fun e he => absurd he (List.not_mem_nil e),
    fun n hn => absurd hn (List.not_mem_nil n),
    rfl, Nat.zero_le c,
    fun n hn => absurd hn (List.not_mem_nil n),
    fun e he => absurd he (List.not_mem_nil e)⟩

theorem inv_fnLog {s : Cache K V} (h : Inv s) (l : List K) :
    Inv { s with fnLog := l } :=
  ⟨h.capPos, h.keysNodup, h.idsNodup, h.trKeysNodup, h.mapToTr, h.trToMap,
    h.len, h.sizeLe, h.idsLt, h.vals⟩

/-- Permuting the tracker (as the hit-path splice does) preserves the
invariant. -/
theorem inv_tracker_perm {s : Cache K V} {t : List (Nat × K)} (h : Inv s)
    (hp : s.tracker.Perm t) : Inv { s with tracker := t } := by
  refine ⟨h.capPos, h.keysNodup, ?_, ?_,
    fun e he => hp.mem_iff.1 (h.mapToTr e he),
    fun n hn => h.trToMap n (hp.mem_iff.2 hn),
    h.len.trans hp.length_eq,
    h.sizeLe,
    fun n hn => h.idsLt n (hp.mem_iff.2 hn),
    h.vals⟩
  · show (t.map (fun n => n.1)).Nodup
    have h1 : (s.tracker.map (Prod.fst : Nat × K → Nat)).Nodup := h.idsNodup
    exact ((hp.map Prod.fst).nodup_iff).1 h1
  · show (t.map (fun n => n.2)).Nodup
    have h2 : (s.tracker.map (Prod.snd : Nat × K → K)).Nodup := h.trKeysNodup
    exact ((hp.map Prod.snd).nodup_iff).1 h2

/-- `evict()` on a state whose tracker starts with node `n`: the front node
is popped, its key's map entry is erased, the key is logged, the entry count
drops by one, and the invariant is preserved. -/
theorem evict_spec {s : Cache K V} (h : Inv s) {n : Nat × K}
    {rest : List (Nat × K)} (ht : s.tracker = n :: rest) :
    Inv (evict s) ∧ (evict s).tracker = rest ∧
    (evict s).evictLog = s.evictLog ++ [n.2] ∧
    (evict s).keyToValue.length + 1 = s.keyToValue.length ∧
    keys (evict s) ⊆ keys s := by
  obtain ⟨v, hv⟩ := h.trToMap n (by rw [ht]; exact List.mem_cons_self n rest)
  obtain ⟨m₁, m₂, hdecomp, hfind, herase, hother⟩ :=
    unique_key_split (f := fun e => e.1)
      (show (s.keyToValue.map (fun e => e.1)).Nodup from h.keysNodup) hv
      (p := fun e => decide (e.1 = n.2)) (fun b => rfl)
  have hother' : ∀ b ∈ m₁ ++ m₂, b.1 ≠ n.2 := fun b hb => hother b hb
  have hev : evict s = { s with
      keyToValue := m₁ ++ m₂,
      tracker := rest,
      evictLog := s.evictLog ++ [n.2] } := by
    simp [evict, ht, herase]
  have hlen : s.keyToValue.length = m₁.length + 1 + m₂.length := by
    rw [hdecomp]; simp; omega
  have hlenTr : s.tracker.length = rest.length + 1 := by rw [ht]; simp
  have hmemfull : ∀ e, e ∈ m₁ ++ m₂ → e ∈ s.keyToValue := by
    intro e he
    rw [hdecomp]
    rcases List.mem_append.1 he with h1 | h2
    · exact List.mem_append_left _ h1
    · exact List.mem_append_right _ (List.mem_cons_of_mem _ h2)
  have hinv : Inv (evict s) := by
    rw [hev]
    refine ⟨h.capPos, ?_, ?_, ?_, ?_, ?_, ?_, ?_, ?_, ?_⟩
    · show ((m₁ ++ m₂).map (·.1)).Nodup
      have hsub : (m₁ ++ m₂).Sublist (m₁ ++ (n.2, (v, n.1)) :: m₂) :=
        (List.sublist_cons_self _ m₂).append_left m₁
      exact (hsub.map (·.1)).nodup (hdecomp ▸ h.keysNodup)
    · show ((rest).map (·.1)).Nodup
      have := h.idsNodup
      rw [ht, List.map_cons, List.nodup_cons] at this
      exact this.2
    · show ((rest).map (·.2)).Nodup
      have := h.trKeysNodup
      unfold trackerKeys at this
      rw [ht, List.map_cons, List.nodup_cons] at this
      exact this.2
    · show ∀ e ∈ m₁ ++ m₂, (e.2.2, e.1) ∈ rest
      intro e he
      have hmem : (e.2.2, e.1) ∈ s.tracker := h.mapToTr e (hmemfull e he)
      rw [ht] at hmem
      rcases List.mem_cons.1 hmem with heq | hmem'
      · exact absurd (congrArg Prod.snd heq) (hother' e he)
      · exact hmem'
    · show ∀ nd ∈ rest, ∃ v', (nd.2, (v', nd.1)) ∈ m₁ ++ m₂
      intro nd hnd
      obtain ⟨v', hv'⟩ := h.trToMap nd (by rw [ht]; exact List.mem_cons_of_mem n hnd)
      rw [hdecomp] at hv'
      have hne : nd.2 ≠ n.2 := by
        have := h.trKeysNodup
        unfold trackerKeys at this
        rw [ht, List.map_cons, List.nodup_cons] at this
        intro heq
        exact this.1 (heq ▸ List.mem_map_of_mem (·.2) hnd)
      refine ⟨v', ?_⟩
      rcases List.mem_append.1 hv' with h1 | h2
      · exact List.mem_append_left _ h1
      · rcases List.mem_cons.1 h2 with heq | h3
        · exact absurd (congrArg Prod.fst heq) hne
        · exact List.mem_append_right _ h3
    · show (m₁ ++ m₂).length = rest.length
      have := h.len
      rw [hlen, hlenTr] at this
      simp; omega
    · show (m₁ ++ m₂).length ≤ s.capacity
      have := h.sizeLe
      rw [hlen] at this
      simp; omega
    · show ∀ nd ∈ rest, nd.1 < s.nextId
      intro nd hnd
      exact h.idsLt nd (by rw [ht]; exact List.mem_cons_of_mem n hnd)
    · show ∀ e ∈ m₁ ++ m₂, e.2.1 = s.fn e.1
      intro e he
      exact h.vals e (hmemfull e he)
  refine ⟨hinv, by rw [hev], by rw [hev], ?_, ?_⟩
  · rw [hev]
    show (m₁ ++ m₂).length + 1 = s.keyToValue.length
    rw [hlen]; simp; omega
  · intro k hk
    rw [hev] at hk
    obtain ⟨p, hp⟩ := mem_keys.1 hk
    exact mem_keys.2 ⟨p, hmemfull _ hp⟩

theorem nodup_concat {α : Type} {l : List α} {a : α} (hl : l.Nodup)
    (ha : a ∉ l) : (l ++ [a]).Nodup := by
  rw [(List.perm_append_singleton a l).nodup_iff, List.nodup_cons]
  exact ⟨ha, hl⟩

/-- Under the invariant, the tracker holds exactly the keys of the map. -/
theorem Inv.mem_trackerKeys_iff {s : Cache K V} (h : Inv s) (k : K) :
    k ∈ trackerKeys s ↔ k ∈ keys s := by
  constructor
  · intro hk
    obtain ⟨n, hn, hnk⟩ := List.mem_map.1 hk
    obtain ⟨v, hv⟩ := h.trToMap n hn
    exact mem_keys.2 ⟨(v, n.1), hnk ▸ hv⟩
  · intro hk
    obtain ⟨p, hp⟩ := mem_keys.1 hk
    exact List.mem_map.2 ⟨(p.2, k), h.mapToTr _ hp, rfl⟩

theorem insert_spec_not_full {s : Cache K V} (k : K) (v : V)
    (hlen : s.keyToValue.length ≠ s.capacity) :
    insert s k v = { s with
      tracker := s.tracker ++ [(s.nextId, k)],
      keyToValue := s.keyToValue ++ [(k, (v, s.nextId))],
      nextId := s.nextId + 1 } := by
  unfold insert; dsimp only; rw [if_neg hlen]

theorem insert_spec_full {s : Cache K V} (k : K) (v : V)
    (hlen : s.keyToValue.length = s.capacity) :
    insert s k v = { evict s with
      tracker := (evict s).tracker ++ [((evict s).nextId, k)],
      keyToValue := (evict s).keyToValue ++ [(k, (v, (evict s).nextId))],
      nextId := (evict s).nextId + 1 } := by
  unfold insert; dsimp only; rw [if_pos hlen]

/-- Appending a fresh key at the back (the second half of `insert`)
preserves the invariant when there is room. -/
theorem inv_append {s : Cache K V} (h : Inv s) {k : K} (hk : k ∉ keys s)
    (hlt : s.keyToValue.length < s.capacity) {v : V} (hv : v = s.fn k) :
    Inv { s with
      tracker := s.tracker ++ [(s.nextId, k)],
      keyToValue := s.keyToValue ++ [(k, (v, s.nextId))],
      nextId := s.nextId + 1 } := by
  refine ⟨h.capPos, ?_, ?_, ?_, ?_, ?_, ?_, ?_, ?_, ?_⟩
  · show ((s.keyToValue ++ [(k, (v, s.nextId))]).map (·.1)).Nodup
    rw [List.map_append]
    exact nodup_concat h.keysNodup hk
  · show ((s.tracker ++ [(s.nextId, k)]).map (·.1)).Nodup
    rw [List.map_append]
    refine nodup_concat h.idsNodup ?_
    intro hmem
    obtain ⟨n, hn, hn1⟩ := List.mem_map.1 hmem
    exact absurd hn1 (Nat.ne_of_lt (h.idsLt n hn))
  · show ((s.tracker ++ [(s.nextId, k)]).map (·.2)).Nodup
    rw [List.map_append]
    refine nodup_concat h.trKeysNodup ?_
    intro hmem
    exact hk ((h.mem_trackerKeys_iff k).1 hmem)
  · intro e he
    show (e.2.2, e.1) ∈ s.tracker ++ [(s.nextId, k)]
    rcases List.mem_append.1 he with h1 | h2
    · exact List.mem_append_left _ (h.mapToTr e h1)
    · rw [List.mem_singleton.1 h2]
      exact List.mem_append_right _ (List.mem_singleton.2 rfl)
  · intro n hn
    show ∃ v', (n.2, (v', n.1)) ∈ s.keyToValue ++ [(k, (v, s.nextId))]
    rcases List.mem_append.1 hn with h1 | h2
    · obtain ⟨v', hv'⟩ := h.trToMap n h1
      exact ⟨v', List.mem_append_left _ hv'⟩
    · rw [List.mem_singleton.1 h2]
      exact ⟨v, List.mem_append_right _ (List.mem_singleton.2 rfl)⟩
  · show (s.keyToValue ++ _).length = (s.tracker ++ _).length
    simp [h.len]
  · show (s.keyToValue ++ _).length ≤ s.capacity
    simp only [List.length_append, List.length_singleton]
    omega
  · intro n hn
    show n.1 < s.nextId + 1
    rcases List.mem_append.1 hn with h1 | h2
    · exact Nat.lt_succ_of_lt (h.idsLt n h1)
    · rw [List.mem_singleton.1 h2]
      exact Nat.lt_succ_self _
  · intro e he
    show e.2.1 = s.fn e.1
    rcases List.mem_append.1 he with h1 | h2
    · exact h.vals e h1
    · rw [List.mem_singleton.1 h2]
      exact hv

/-- `insert` (on a miss) preserves the invariant. -/
theorem inv_insert {s : Cache K V} (h : Inv s) {k : K} (hk : k ∉ keys s)
    {v : V} (hv : v = s.fn k) : Inv (insert s k v) := by
  by_cases hlen : s.keyToValue.length = s.capacity
  · have htne : s.tracker ≠ [] := by
      intro habs
      have := h.len
      rw [habs, hlen] at this
      exact absurd this.symm (Nat.ne_of_lt h.capPos)
    obtain ⟨n, rest, ht⟩ : ∃ n rest, s.tracker = n :: rest := by
      cases hcase : s.tracker with
      | nil => exact absurd hcase htne
      | cons n rest => exact ⟨n, rest, rfl⟩
    obtain ⟨hinv', _, _, hlen', hsub⟩ := evict_spec h ht
    rw [insert_spec_full k v hlen]
    refine inv_append hinv' (fun hmem => hk (hsub hmem)) ?_ ?_
    · rw [evict_capacity]
      omega
    · rw [evict_fn, hv]
  · rw [insert_spec_not_full k v hlen]
    exact inv_append h hk (Nat.lt_of_le_of_ne h.sizeLe hlen) hv

/-- `operator[]` on a miss: the function is evaluated (and logged) and the
result inserted. -/
theorem get_miss {s : Cache K V} {k : K} (hk : k ∉ keys s) :
    get s k = (s.fn k, insert { s with fnLog := s.fnLog ++ [k] } k (s.fn k)) := by
  unfold get
  rw [findEntry_eq_none.2 hk]

/-- `operator[]` on a hit: the stored value is returned and the key's node
(slid out of the middle of the tracker via its stored handle) moves to the
back; nothing else changes. -/
theorem get_hit_spec {s : Cache K V} (h : Inv s) {k : K} (hk : k ∈ keys s) :
    ∃ v hd t₁ t₂, (k, (v, hd)) ∈ s.keyToValue ∧ v = s.fn k ∧
      s.tracker = t₁ ++ (hd, k) :: t₂ ∧
      get s k = (v, { s with tracker := (t₁ ++ t₂) ++ [(hd, k)] }) := by
  obtain ⟨p, hp⟩ := mem_keys.1 hk
  obtain ⟨m₁, m₂, _, hfind, _, _⟩ :=
    unique_key_split (f := fun e => e.1)
      (show (s.keyToValue.map (fun e => e.1)).Nodup from h.keysNodup) hp
      (p := fun e => decide (e.1 = k)) (fun b => rfl)
  have hnode : (p.2, k) ∈ s.tracker := h.mapToTr _ hp
  obtain ⟨t₁, t₂, hdecomp, hfindTr, heraseTr, _⟩ :=
    unique_key_split (f := fun n => n.1)
      (show (s.tracker.map (fun n => n.1)).Nodup from h.idsNodup) hnode
      (p := fun n => decide (n.1 = p.2)) (fun b => rfl)
  refine ⟨p.1, p.2, t₁, t₂, hp, h.vals _ hp, hdecomp, ?_⟩
  unfold get
  rw [hfind]
  dsimp only
  unfold splice
  rw [hfindTr, heraseTr]

/-- `operator[]` preserves the invariant. -/
theorem inv_get {s : Cache K V} (h : Inv s) (k : K) : Inv (get s k).2 := by
  by_cases hk : k ∈ keys s
  · obtain ⟨v, hd, t₁, t₂, _, _, hdecomp, hget⟩ := get_hit_spec h hk
    rw [hget]
    refine inv_tracker_perm h ?_
    rw [hdecomp]
    exact List.perm_middle.trans (List.perm_append_singleton _ _).symm
  · rw [get_miss hk]
    exact inv_insert (inv_fnLog h (s.fnLog ++ [k])) hk rfl

/-! ## Reachability -/

theorem reachable_inv {f : K → V} {c : Nat} {s : Cache K V} (hc : 0 < c)
    (h : Reachable f c s) : Inv s := by
  induction h with
  | init => exact inv_fresh hc
  | step s k _ ih => exact inv_get ih k

theorem reachable_fn {f : K → V} {c : Nat} {s : Cache K V}
    (h : Reachable f c s) : s.fn = f := by
  induction h with
  | init => rfl
  | step s k _ ih => rw [get_fn]; exact ih

theorem reachable_capacity {f : K → V} {c : Nat} {s : Cache K V}
    (h : Reachable f c s) : s.capacity = c := by
  induction h with
  | init => rfl
  | step s k _ ih => rw [get_capacity]; exact ih

theorem runGets_append_singleton (s : Cache K V) (ks : List K) (k : K) :
    runGets s (ks ++ [k]) = (get (runGets s ks) k).2 := by
  unfold runGets
  rw [List.foldl_append]
  rfl

theorem reachable_runGets {f : K → V} {c : Nat} {s : Cache K V}
    (h : Reachable f c s) (ks : List K) : Reachable f c (runGets s ks) := by
  induction ks generalizing s with
  | nil => exact h
  | cons k ks ih => exact ih (Reachable.step s k h)

/-- Characterization of a run of pairwise-distinct misses from a fresh
cache: the tracker holds the last `capacity` keys in order, and the evicted
keys are exactly the first `length - capacity` keys, oldest first. -/
theorem runGets_fresh_spec {f : K → V} {c : Nat} (hc : 0 < c) (ks : List K)
    (hnd : ks.Nodup) :
    trackerKeys (runGets (fresh f c) ks) = ks.drop (ks.length - c) ∧
    (runGets (fresh f c) ks).evictLog = ks.take (ks.length - c) := by
  induction ks using List.reverseRecOn with
  | nil => exact ⟨by simp [runGets, fresh, trackerKeys], by simp [runGets, fresh]⟩
  | append_singleton ks k ih =>
    rw [List.nodup_append] at hnd
    obtain ⟨hks, -, hdisj⟩ := hnd
    have hknot : k ∉ ks := fun hk => hdisj hk (List.mem_singleton.2 rfl)
    obtain ⟨htr, hev⟩ := ih hks
    set s := runGets (fresh f c) ks with hs
    have hreach : Reachable f c s := reachable_runGets Reachable.init ks
    have hinv : Inv s := reachable_inv hc hreach
    have hcap : s.capacity = c := reachable_capacity hreach
    have hkk : k ∉ keys s := by
      intro hmem
      exact hknot (htr ▸ (hinv.mem_trackerKeys_iff k).2 hmem |> List.drop_subset _ ks)
    have hlenTr : s.tracker.length = ks.length - (ks.length - c) := by
      have : (trackerKeys s).length = s.tracker.length := List.length_map _ _
      rw [← this, htr, List.length_drop]
    have hlenMap : s.keyToValue.length = ks.length - (ks.length - c) :=
      hinv.len.trans hlenTr
    rw [runGets_append_singleton, get_miss hkk]
    set s' : Cache K V := { s with fnLog := s.fnLog ++ [k] } with hs'
    by_cases hfull : s'.keyToValue.length = s'.capacity
    · -- the cache is full: the LRU key is evicted first
      have hfull' : s.keyToValue.length = c := by
        have : s'.keyToValue.length = s.keyToValue.length := rfl
        rw [this, show s'.capacity = s.capacity from rfl, hcap] at hfull
        exact hfull
      have hge : c ≤ ks.length := by omega
      have hnc : ks.length - (ks.length - c) = c := by omega
      obtain ⟨nd, rest, htrk⟩ : ∃ nd rest, s'.tracker = nd :: rest := by
        cases hcase : s'.tracker with
        | nil =>
          exfalso
          have hnil : s.tracker = [] := hcase
          have : s.tracker.length = 0 := by rw [hnil]; rfl
          omega
        | cons nd rest => exact ⟨nd, rest, rfl⟩
      have hinv' : Inv s' := inv_fnLog hinv _
      obtain ⟨-, hrest, hevlog, -, -⟩ := evict_spec hinv' htrk
      have hkopt : ks[ks.length - c]? = some nd.2 := by
        have h1 : (trackerKeys s).head? = some nd.2 := by
          unfold trackerKeys
          rw [show s.tracker = nd :: rest from htrk]
          rfl
        rw [htr, List.head?_drop] at h1
        exact h1
      rw [insert_spec_full k (s'.fn k) hfull]
      constructor
      · show ((evict s').tracker ++ [((evict s').nextId, k)]).map (·.2) =
          (ks ++ [k]).drop ((ks ++ [k]).length - c)
        rw [hrest, List.map_append]
        have hxs : rest.map (·.2) = ks.drop (ks.length - c + 1) := by
          have h2 : (trackerKeys s).tail = rest.map (·.2) := by
            unfold trackerKeys
            rw [show s.tracker = nd :: rest from htrk]
            rfl
          rw [htr, List.tail_drop] at h2
          exact h2.symm
        rw [hxs]
        have hlsum : (ks ++ [k]).length - c = (ks.length - c) + 1 := by
          rw [List.length_append]
          simp
          omega
        rw [hlsum, List.drop_append_of_le_length (by omega)]
        rfl
      · show (evict s').evictLog = (ks ++ [k]).take ((ks ++ [k]).length - c)
        rw [hevlog]
        have hlsum : (ks ++ [k]).length - c = (ks.length - c) + 1 := by
          rw [List.length_append]
          simp
          omega
        rw [hlsum, List.take_append_of_le_length (by omega),
          List.take_succ, hkopt]
        rw [show s'.evictLog = s.evictLog from rfl, hev]
        rfl
    · -- the cache still has room: no eviction
      have hlt : ks.length < c := by
        have h1 : s'.keyToValue.length = s.keyToValue.length := rfl
        have h2 : s'.capacity = c := hcap
        rw [h1, h2, hlenMap] at hfull
        omega
      have hnc0 : ks.length - c = 0 := by omega
      have hnc0' : (ks ++ [k]).length - c = 0 := by
        rw [List.length_append]
        simp
        omega
      rw [insert_spec_not_full k (s'.fn k) hfull]
      constructor
      · show (s'.tracker ++ [(s'.nextId, k)]).map (·.2) =
          (ks ++ [k]).drop ((ks ++ [k]).length - c)
        rw [hnc0', List.drop_zero, List.map_append,
          show s'.tracker = s.tracker from rfl]
        have : s.tracker.map (·.2) = ks := by
          have := htr
          unfold trackerKeys at this
          rw [hnc0, List.drop_zero] at this
          exact this
        rw [this]
        rfl
      · show s'.evictLog = (ks ++ [k]).take ((ks ++ [k]).length - c)
        rw [hnc0', List.take_zero, show s'.evictLog = s.evictLog from rfl,
          hev, hnc0, List.take_zero]

/-- `find(k)` (lookup without promotion), projected to the stored value. -/
def findVal (s : Cache K V) (k : K) : Option V :=
  (s.keyToValue.find? (fun e => decide (e.1 = k))).map (fun e => e.2.1)

theorem findVal_of_mem {s : Cache K V} (hn : (keys s).Nodup) {k : K} {v : V}
    {hd : Nat} (hmem : (k, (v, hd)) ∈ s.keyToValue) : findVal s k = some v := by
  obtain ⟨-, -, -, hfind, -, -⟩ :=
    unique_key_split (f := fun e => e.1)
      (show (s.keyToValue.map (fun e => e.1)).Nodup from hn) hmem
      (p := fun e => decide (e.1 = k)) (fun b => rfl)
  unfold findVal
  rw [hfind]
  rfl

/-- The entry freshly written by `insert` is in the map afterwards. -/
theorem insert_mem_self (s : Cache K V) (k : K) (v : V) :
    ∃ x, (k, (v, x)) ∈ (insert s k v).keyToValue := by
  unfold insert
  dsimp only
  exact ⟨_, List.mem_append_right _ (List.mem_singleton.2 rfl)⟩

theorem Inv.keys_perm_trackerKeys {s : Cache K V} (h : Inv s) :
    (keys s).Perm (trackerKeys s) := by
  refine List.perm_of_nodup_nodup_toFinset_eq h.keysNodup h.trKeysNodup ?_
  ext a
  simp only [List.mem_toFinset]
  exact (h.mem_trackerKeys_iff a).symm

/-! ## The claims -/

/-- C1: for every key `k`, `operator[]` on a reachable cache over `f`
returns `f k` — computed and stored on a miss, read back (equal to `f k`)
on a hit — and afterwards `k`'s stored value is `f k`. -/
theorem c1_get_returns_function_value {f : K → V} {c : Nat} {s : Cache K V}
    (k : K) (hc : 0 < c) (hr : Reachable f c s) :
    (get s k).1 = f k ∧ findVal (get s k).2 k = some (f k) := by
  have hinv := reachable_inv hc hr
  have hfn := reachable_fn hr
  by_cases hk : k ∈ keys s
  · obtain ⟨v, hd, t₁, t₂, hmem, hv, -, hget⟩ := get_hit_spec hinv hk
    have hvf : v = f k := by rw [hv, hfn]
    constructor
    · rw [hget, hvf]
    · rw [hget]
      exact hvf ▸ findVal_of_mem hinv.keysNodup hmem
  · rw [get_miss hk]
    refine ⟨congrFun hfn k, ?_⟩
    have hinvIns : Inv (insert { s with fnLog := s.fnLog ++ [k] } k (s.fn k)) :=
      inv_insert (inv_fnLog hinv (s.fnLog ++ [k])) hk rfl
    obtain ⟨x, hx⟩ := insert_mem_self { s with fnLog := s.fnLog ++ [k] } k (s.fn k)
    show findVal (insert { s with fnLog := s.fnLog ++ [k] } k (s.fn k)) k =
      some (f k)
    rw [← congrFun hfn k]
    exact findVal_of_mem hinvIns.keysNodup hx

/-- C1 witness: a concrete miss on a fresh cache over squaring. -/
theorem c1_witness :
    (get (fresh (fun n : Nat => n * n) 2) 3).1 = (fun n : Nat => n * n) 3 ∧
    findVal (get (fresh (fun n : Nat => n * n) 2) 3).2 3 =
      some ((fun n : Nat => n * n) 3) :=
  c1_get_returns_function_value (f := fun n : Nat => n * n) (c := 2) 3
    (by decide) Reachable.init

/-- C2: getting `N > c` pairwise-distinct keys on an empty cache of
capacity `c` leaves exactly the last `c` keys cached, and evicts the first
`N - c` keys oldest-first. -/
theorem c2_distinct_run_keeps_last_capacity_keys {f : K → V} {c : Nat}
    (hc : 0 < c) (ks : List K) (hnd : ks.Nodup) (hlen : c < ks.length) :
    (keys (runGets (fresh f c) ks)).Perm (ks.drop (ks.length - c)) ∧
    (runGets (fresh f c) ks).evictLog = ks.take (ks.length - c) := by
  obtain ⟨htr, hev⟩ := runGets_fresh_spec hc ks hnd
  refine ⟨?_, hev⟩
  have hinv : Inv (runGets (fresh f c) ks) :=
    reachable_inv hc (reachable_runGets Reachable.init ks)
  exact htr ▸ hinv.keys_perm_trackerKeys

/-- C2 witness: capacity 2, keys 0,1,2: keys 1 and 2 survive, 0 is evicted. -/
theorem c2_witness :
    (keys (runGets (fresh (fun n : Nat => n * n) 2) [0, 1, 2])).Perm
      (([0, 1, 2] : List Nat).drop ([0, 1, 2].length - 2)) ∧
    (runGets (fresh (fun n : Nat => n * n) 2) [0, 1, 2]).evictLog =
      ([0, 1, 2] : List Nat).take ([0, 1, 2].length - 2) :=
  c2_distinct_run_keeps_last_capacity_keys (f := fun n : Nat => n * n) (c := 2)
    (by decide) [0, 1, 2] (by decide) (by decide)

/-- C3: with capacity 2, after `get A`, `get B`, `get A` (a hit promoting
A), a `get C` on a fresh key evicts B — not A — leaving exactly A and C
cached. -/
theorem c3_promotion_on_hit {f : K → V} (a b cc : K) (hab : a ≠ b)
    (hac : a ≠ cc) (hbc : b ≠ cc) :
    keys (get (get (get (get (fresh f 2) a).2 b).2 a).2 cc).2 = [a, cc] ∧
    (get (get (get (get (fresh f 2) a).2 b).2 a).2 cc).2.evictLog = [b] := by
  simp [get, insert, splice, evict, fresh, keys, List.find?, hab, hac, hbc,
    Ne.symm hab, Ne.symm hac, Ne.symm hbc]

/-- C3 witness: the scenario at keys 0, 1, 2. -/
theorem c3_witness :
    keys (get (get (get (get (fresh (fun n : Nat => n * n) 2) 0).2 1).2 0).2 2).2
      = [0, 2] ∧
    (get (get (get (get (fresh (fun n : Nat => n * n) 2) 0).2 1).2 0).2 2).2.evictLog
      = [1] :=
  c3_promotion_on_hit 0 1 2 (by decide) (by decide) (by decide)

/-- C4: on every reachable state of a cache with positive capacity,
`size() <= capacity()`. -/
theorem c4_size_le_capacity {f : K → V} {c : Nat} {s : Cache K V}
    (hc : 0 < c) (hr : Reachable f c s) : size s ≤ s.capacity :=
  (reachable_inv hc hr).sizeLe

/-- C4 witness: after two gets on a capacity-2 cache. -/
theorem c4_witness :
    size (get (get (fresh (fun n : Nat => n * n) 2) 1).2 2).2 ≤
      (get (get (fresh (fun n : Nat => n * n) 2) 1).2 2).2.capacity :=
  c4_size_le_capacity (f := fun n : Nat => n * n) (c := 2) (by decide)
    (Reachable.step _ 2 (Reachable.step _ 1 Reachable.init))

/-- C5: on every reachable state the index keys are exactly (a permutation
of) the tracker keys, the tracker lists each key once, and every map
entry's stored handle designates that key's own tracker node. -/
theorem c5_bijection_invariant {f : K → V} {c : Nat} {s : Cache K V}
    (hc : 0 < c) (hr : Reachable f c s) :
    (keys s).Perm (trackerKeys s) ∧ (trackerKeys s).Nodup ∧
    s.keyToValue.all (fun e => decide ((e.2.2, e.1) ∈ s.tracker)) = true := by
  have hinv := reachable_inv hc hr
  refine ⟨hinv.keys_perm_trackerKeys, hinv.trKeysNodup, ?_⟩
  rw [List.all_eq_true]
  intro e he
  exact decide_eq_true (hinv.mapToTr e he)

/-- C5 witness: after three gets (one a hit) on a capacity-2 cache. -/
theorem c5_witness :
    (keys (get (get (get (fresh (fun n : Nat => n * n) 2) 1).2 2).2 1).2).Perm
      (trackerKeys (get (get (get (fresh (fun n : Nat => n * n) 2) 1).2 2).2 1).2) ∧
    (trackerKeys (get (get (get (fresh (fun n : Nat => n * n) 2) 1).2 2).2 1).2).Nodup ∧
    (get (get (get (fresh (fun n : Nat => n * n) 2) 1).2 2).2 1).2.keyToValue.all
      (fun e => decide ((e.2.2, e.1) ∈
        (get (get (get (fresh (fun n : Nat => n * n) 2) 1).2 2).2 1).2.tracker)) = true :=
  c5_bijection_invariant (f := fun n : Nat => n * n) (c := 2) (by decide)
    (Reachable.step _ 1 (Reachable.step _ 2 (Reachable.step _ 1 Reachable.init)))

/-- C6: a miss on `k` invokes the function exactly once (on `k`); a `get`
on a resident `k` performs no invocation at all. -/
theorem c6_at_most_one_invocation_per_residency (s : Cache K V) (k : K) :
    (k ∉ keys s → (get s k).2.fnLog = s.fnLog ++ [k]) ∧
    (k ∈ keys s → (get s k).2.fnLog = s.fnLog) := by
  constructor
  · intro hk
    rw [get_miss hk]
    show (insert { s with fnLog := s.fnLog ++ [k] } k (s.fn k)).fnLog = _
    rw [insert_fnLog]
  · intro hk
    cases hfind : s.keyToValue.find? (fun e => decide (e.1 = k)) with
    | none => exact absurd (findEntry_eq_none.1 hfind) (fun h => h hk)
    | some e =>
      unfold get
      rw [hfind]
      dsimp only
      rw [splice_fnLog]

/-- C6 witness: a miss logs the key; the following hit logs nothing. -/
theorem c6_witness :
    (get (fresh (fun n : Nat => n * n) 2) 5).2.fnLog =
      (fresh (fun n : Nat => n * n) 2).fnLog ++ [5] ∧
    (get (get (fresh (fun n : Nat => n * n) 2) 5).2 5).2.fnLog =
      (get (fresh (fun n : Nat => n * n) 2) 5).2.fnLog :=
  ⟨(c6_at_most_one_invocation_per_residency (fresh (fun n : Nat => n * n) 2) 5).1
      (by decide),
   (c6_at_most_one_invocation_per_residency
      (get (fresh (fun n : Nat => n * n) 2) 5).2 5).2 (by decide)⟩

/-- C7: if the function fails on a miss for `k`, the failure propagates
and the state is returned exactly unchanged (same size, no entry, no
eviction); a later successful `get k` does invoke the function. -/
theorem c7_failure_leaves_state_unchanged {E : Type} {s : Cache K V}
    {fe fe2 : K → Except E V} {k : K} {err : E} {v : V}
    (hk : k ∉ keys s) (herr : fe k = .error err) (hok : fe2 k = .ok v) :
    getE s fe k = (.error err, s) ∧
    size (getE s fe k).2 = size s ∧
    (getE (getE s fe k).2 fe2 k).2.fnLog = s.fnLog ++ [k] := by
  have hnone := findEntry_eq_none.2 hk
  have h1 : getE s fe k = (.error err, s) := by
    unfold getE
    rw [hnone, herr]
  refine ⟨h1, by rw [h1], ?_⟩
  rw [h1]
  show (getE s fe2 k).2.fnLog = s.fnLog ++ [k]
  unfold getE
  rw [hnone, hok]
  dsimp only
  rw [insert_fnLog]

/-- C7 witness: a failing then a succeeding lookup at key 3. -/
theorem c7_witness :
    getE (fresh (fun n : Nat => n * n) 2)
        (fun _ : Nat => (Except.error "boom" : Except String Nat)) 3 =
      (Except.error "boom", fresh (fun n : Nat => n * n) 2) ∧
    size (getE (fresh (fun n : Nat => n * n) 2)
        (fun _ : Nat => (Except.error "boom" : Except String Nat)) 3).2 =
      size (fresh (fun n : Nat => n * n) 2) ∧
    (getE (getE (fresh (fun n : Nat => n * n) 2)
          (fun _ : Nat => (Except.error "boom" : Except String Nat)) 3).2
        (fun n : Nat => (Except.ok (n * n) : Except String Nat)) 3).2.fnLog =
      (fresh (fun n : Nat => n * n) 2).fnLog ++ [3] :=
  c7_failure_leaves_state_unchanged (by decide) rfl rfl

/-- C8: constructing with capacity 0 is refused (the `assert` fails);
any positive capacity yields an empty cache. -/
theorem c8_construction_contract {f : K → V} (c : Nat) (hc : 0 < c) :
    mkCache (V := V) f 0 = none ∧ mkCache f c = some (fresh f c) ∧
    size (fresh f c : Cache K V) = 0 ∧ keys (fresh f c : Cache K V) = [] := by
  refine ⟨rfl, ?_, rfl, rfl⟩
  unfold mkCache
  rw [if_neg (Nat.pos_iff_ne_zero.1 hc)]

/-- C8 witness: capacity 5 over squaring. -/
theorem c8_witness :
    mkCache (V := Nat) (fun n : Nat => n * n) 0 = none ∧
    mkCache (fun n : Nat => n * n) 5 = some (fresh (fun n : Nat => n * n) 5) ∧
    size (fresh (fun n : Nat => n * n) 5 : Cache Nat Nat) = 0 ∧
    keys (fresh (fun n : Nat => n * n) 5 : Cache Nat Nat) = [] :=
  c8_construction_contract 5 (by decide)

/-- C9: `front()` returns the end-of-map marker (`none`) on an empty
cache, and otherwise the map entry of the least-recently-used key (the
tracker front) — as a pure observation taking no new state. -/
theorem c9_front_returns_lru_entry {f : K → V} {c : Nat} {s : Cache K V}
    (hc : 0 < c) (hr : Reachable f c s) :
    front s = s.tracker.head?.map (fun n => (n.2, (f n.2, n.1))) := by
  have hinv := reachable_inv hc hr
  have hfn := reachable_fn hr
  cases ht : s.tracker with
  | nil => simp [front, ht]
  | cons n rest =>
    obtain ⟨v, hv⟩ := hinv.trToMap n (by rw [ht]; exact List.mem_cons_self n rest)
    obtain ⟨-, -, -, hfind, -, -⟩ :=
      unique_key_split (f := fun e => e.1)
        (show (s.keyToValue.map (fun e => e.1)).Nodup from hinv.keysNodup) hv
        (p := fun e => decide (e.1 = n.2)) (fun b => rfl)
    have hvf : v = f n.2 := by
      have hv2 : v = s.fn n.2 := hinv.vals _ hv
      rw [hv2, hfn]
    unfold front
    rw [ht]
    dsimp only
    rw [hfind, hvf]
    rfl

/-- C9 witness: after one get the front is that key's entry; shown via the
theorem at a concrete reachable state. -/
theorem c9_witness :
    front (get (fresh (fun n : Nat => n * n) 2) 7).2 =
      (get (fresh (fun n : Nat => n * n) 2) 7).2.tracker.head?.map
        (fun n => (n.2, ((fun m : Nat => m * m) n.2, n.1))) :=
  c9_front_returns_lru_entry (f := fun n : Nat => n * n) (c := 2) (by decide)
    (Reachable.step _ 7 Reachable.init)

/-- C10: a hit changes nothing but the position of the hit key, which
moves to the most-recent end; the map, the logs and the size are all
untouched, and the other keys keep their relative order. -/
theorem c10_hit_frame_effect {f : K → V} {c : Nat} {s : Cache K V} {k : K}
    (hc : 0 < c) (hr : Reachable f c s) (hk : k ∈ keys s) :
    (get s k).2.keyToValue = s.keyToValue ∧
    trackerKeys (get s k).2 = (trackerKeys s).erase k ++ [k] ∧
    (get s k).2.fnLog = s.fnLog ∧
    (get s k).2.evictLog = s.evictLog ∧
    size (get s k).2 = size s := by
  have hinv := reachable_inv hc hr
  obtain ⟨v, hd, t₁, t₂, hmem, -, hdecomp, hget⟩ := get_hit_spec hinv hk
  have htk : trackerKeys s = t₁.map (·.2) ++ k :: t₂.map (·.2) := by
    unfold trackerKeys
    rw [hdecomp]
    simp
  have hknot : k ∉ t₁.map (·.2) := by
    intro hmem1
    have hnd := hinv.trKeysNodup
    rw [htk, List.nodup_append] at hnd
    exact hnd.2.2 hmem1 (List.mem_cons_self _ _)
  refine ⟨by rw [hget], ?_, by rw [hget], by rw [hget], by rw [hget]; rfl⟩
  rw [hget]
  show ((t₁ ++ t₂) ++ [(hd, k)]).map (·.2) = (trackerKeys s).erase k ++ [k]
  rw [htk, List.erase_append_right _ hknot, List.erase_cons_head]
  simp

/-- C10 witness: hitting key 1 in a capacity-2 cache holding 1 and 2. -/
theorem c10_witness :
    (get (get (get (fresh (fun n : Nat => n * n) 2) 1).2 2).2 1).2.keyToValue =
      (get (get (fresh (fun n : Nat => n * n) 2) 1).2 2).2.keyToValue ∧
    trackerKeys (get (get (get (fresh (fun n : Nat => n * n) 2) 1).2 2).2 1).2 =
      (trackerKeys (get (get (fresh (fun n : Nat => n * n) 2) 1).2 2).2).erase 1 ++ [1] ∧
    (get (get (get (fresh (fun n : Nat => n * n) 2) 1).2 2).2 1).2.fnLog =
      (get (get (fresh (fun n : Nat => n * n) 2) 1).2 2).2.fnLog ∧
    (get (get (get (fresh (fun n : Nat => n * n) 2) 1).2 2).2 1).2.evictLog =
      (get (get (fresh (fun n : Nat => n * n) 2) 1).2 2).2.evictLog ∧
    size (get (get (get (fresh (fun n : Nat => n * n) 2) 1).2 2).2 1).2 =
      size (get (get (fresh (fun n : Nat => n * n) 2) 1).2 2).2 :=
  c10_hit_frame_effect (f := fun n : Nat => n * n) (c := 2) (k := 1) (by decide)
    (Reachable.step _ 2 (Reachable.step _ 1 Reachable.init)) (by decide)

end LruStd
